import Mathlib

/-!
Verification of mkmetalink (main.go): piece-size selection and the
streaming multi-digest accumulator (`MultiHasher`), plus the mirror-URL
construction in `main`.

Modelling conventions:
* Go `int64` values are modelled as `Int`.  Overflow never occurs in the
  modelled computations for in-range inputs, so no `% 2^64` wrapping is
  needed.
* `calculatePieceSize` uses `float64` logarithms in the source
  (`math.Floor(math.Log2(float64(total)) - 10)` etc.).  The model uses
  the exact integer value `Nat.log 2 total` for `floor(log2 total)`.
  For every in-range `int64` input the Go float computation and the
  exact computation agree: the float comparison `total/current > 7500`
  divides by a power of two (exact) with `total` exactly representable
  whenever the quotient is anywhere near 7500, and rounding of
  `log2` near integer points can only differ from the exact floor on
  inputs whose resulting power of two is clamped to the same boundary
  value (`P_CAP` resp. `P_MAX`) either way.
* Bytes are modelled as `Nat`; a data chunk is a `List Nat`.  The
  digests (SHA-256, SHA-1) are pure functions of the byte sequence fed
  to them since the last reset; since every claim is about byte-range
  accounting and digest-stream equality, a digest is modelled as the
  exact byte sequence that was hashed (an injective stand-in for the
  hash function).  `hash.Sum` does not reset the Go hash state, and the
  model likewise leaves the accumulated bytes in place.
-/

namespace Mkmetalink

/-- A byte chunk (Go `[]byte`). -/
abbrev Chunk := List Nat

/-! ### Constants (main.go lines 24-30) -/

def P_MIN : Int := 256 * 1024
def P_CAP : Int := 4 * 1024 * 1024
def P_MAX : Int := 64 * 1024 * 1024
def N_THRESHOLD : Int := 7500

/-! ### calculatePieceSize (main.go lines 32-61) -/

/-- `floor(log2 x)` of a positive integer, as `Int`-valued helper.
For `x ≤ 0` the Go float code is never consulted on such values in the
branches where this is used. -/
def ilog2 (x : Int) : Nat := Nat.log 2 x.toNat

/-- Embeds Go `calculatePieceSize` (main.go:32-61).
`logExp = floor(log2 total) - 10` may be negative in Go (for
`total < 1024`); then `math.Pow(2, logExp) < 1 ≤ P_MIN` so the
`math.Max` picks `P_MIN`; the model reflects that with the `10 ≤ lg`
test.  The float comparison `float64(total)/float64(current) > 7500`
is exact division by a power of two, i.e. `total > 7500 * current`
over the rationals.  `floor(log2(total/7500))` (real division) equals
`Nat.log 2 (total / 7500)` (integer division) whenever `total ≥ 7500`,
which holds in the branch. -/
def calculatePieceSize (total : Int) : Int :=
  if total ≤ 0 then P_MIN
  else
    let lg := ilog2 total
    let baseLog : Int := if 10 ≤ lg then max P_MIN (2 ^ (lg - 10)) else P_MIN
    let current : Int := if baseLog > P_CAP then P_CAP else baseLog
    let current : Int :=
      if N_THRESHOLD * current < total then
        let stepped : Int := 2 ^ ilog2 (total / N_THRESHOLD)
        let stepped : Int := if stepped < P_CAP then P_CAP else stepped
        let stepped : Int := if stepped > P_MAX then P_MAX else stepped
        stepped
      else current
    if current < P_MIN then P_MIN else current

/-- Modelled from the spec (§4.1), step by step, for comparison with
the source embedding `calculatePieceSize`:
1. `total ≤ 0` returns `P_MIN`;
2. `exp = floor(log2 total) - 10`, `base = max(P_MIN, 2^exp)` capped
   at `P_CAP` (for `exp < 0` the real `2^exp` is below 1, hence below
   `P_MIN`, so the max picks `P_MIN`);
3. if `total / current > N_THRESHOLD` (real division; equivalently
   `total > N_THRESHOLD * current`), replace `current` by
   `2^floor(log2(total / N_THRESHOLD))` clamped into `[P_CAP, P_MAX]`;
4. clamp to at least `P_MIN`. -/
def select_piece_length (total : Int) : Int :=
  if total ≤ 0 then P_MIN
  else
    let e : Int := (ilog2 total : Int) - 10
    let base : Int := max P_MIN (if 0 ≤ e then 2 ^ e.toNat else 0)
    let current : Int := min base P_CAP
    let current : Int :=
      if N_THRESHOLD * current < total then
        min (max (2 ^ ilog2 (total / N_THRESHOLD)) P_CAP) P_MAX
      else current
    max current P_MIN

/-! ### FileHashResult (main.go lines 169-175) -/

/-- Go `FileHashResult`.  `FileSHA256` and the entries of `PieceHashes`
are hex-encoded digests in Go; here a digest is the byte sequence that
was hashed.  `Err` is never set to a non-nil value by the hasher. -/
structure FileHashResult where
  relPath : String
  size : Int
  fileSHA256 : Chunk
  pieceHashes : List Chunk
  err : Option String
deriving Repr, DecidableEq

/-! ### MultiHasher state (main.go lines 177-196) -/

/-- Go `MultiHasher`.  Hash states (`torrentPieceSHA1`, `fileSHA256`,
`filePieceSHA256`) are the byte sequences written since the last reset;
`torrentPieces` is the list of emitted SHA-1 piece digests (Go stores
their 20-byte concatenation). -/
structure MultiHasher where
  pieceSize : Int
  torrentPieceBuffer : Chunk
  torrentPieceSHA1 : Chunk
  torrentPieces : List Chunk
  fileSHA256 : Chunk
  filePieceSHA256 : Chunk
  filePieceBuffer : Int
  currentFilePieceList : List Chunk
  currentFileByteCount : Int
  currentFileRelPath : String
  results : List FileHashResult
deriving Repr, DecidableEq

/-- Go `NewMultiHasher` (main.go:198-207). -/
def NewMultiHasher (pieceSize : Int) : MultiHasher :=
  { pieceSize := pieceSize
    torrentPieceBuffer := []
    torrentPieceSHA1 := []
    torrentPieces := []
    fileSHA256 := []
    filePieceSHA256 := []
    filePieceBuffer := 0
    currentFilePieceList := []
    currentFileByteCount := 0
    currentFileRelPath := ""
    results := [] }

/-- Go `MultiHasher.StartFile` (main.go:209-216). -/
def MultiHasher.StartFile (mh : MultiHasher) (relPath : String) : MultiHasher :=
  { mh with
      currentFileRelPath := relPath
      fileSHA256 := []
      filePieceSHA256 := []
      filePieceBuffer := 0
      currentFilePieceList := []
      currentFileByteCount := 0 }

/-- The first loop of `MultiHasher.Write` (main.go:224-246): feed `data`
into the per-file piece accumulator `(hash, buf, pieces)`, taking at
most `pieceSize - buf` bytes at a time and emitting a piece digest
whenever the accumulator reaches exactly `pieceSize` bytes.
When `min data.length space = 0` with `data` nonempty the source loop
makes no progress on the accumulated bytes (that state is unreachable:
the engine keeps `0 ≤ buf < pieceSize`); the model returns. -/
def filePieceLoop (pieceSize : Int) (hash : Chunk) (buf : Int)
    (pieces : List Chunk) (data : Chunk) : Chunk × Int × List Chunk :=
  if hdata : data = [] then (hash, buf, pieces)
  else
    let space := (pieceSize - buf).toNat
    let k := min data.length space
    if hk : k = 0 then (hash, buf, pieces)
    else
      let chunk := data.take k
      let hash2 := hash ++ chunk
      let buf2 := buf + (k : Int)
      if buf2 = pieceSize then
        filePieceLoop pieceSize [] 0 (pieces ++ [hash2]) (data.drop k)
      else
        filePieceLoop pieceSize hash2 buf2 pieces (data.drop k)
termination_by data.length
decreasing_by
  all_goals
    simp only [List.length_drop]
    rcases data with _ | ⟨b, rest⟩
    · exact absurd rfl hdata
    · simp only [List.length_cons] at *
      omega

/-- The second loop of `MultiHasher.Write` (main.go:248-269): feed
`data` into the cross-file piece accumulator.  `buffer` models
`torrentPieceBuffer` (contents of the `bytes.Buffer`), `sha1` the bytes
written to `torrentPieceSHA1` since its last reset, `pieces` the
emitted torrent piece digests.  As in `filePieceLoop`, the
no-progress state (`min data.length space = 0` with data remaining) is
unreachable and the model returns there. -/
def torrentLoop (pieceSize : Int) (buffer sha1 : Chunk)
    (pieces : List Chunk) (data : Chunk) : Chunk × Chunk × List Chunk :=
  if hdata : data = [] then (buffer, sha1, pieces)
  else
    let space := (pieceSize - (buffer.length : Int)).toNat
    let k := min data.length space
    if hk : k = 0 then (buffer, sha1, pieces)
    else
      let chunk := data.take k
      let buffer2 := buffer ++ chunk
      let sha12 := sha1 ++ chunk
      if (buffer2.length : Int) = pieceSize then
        torrentLoop pieceSize [] [] (pieces ++ [sha12]) (data.drop k)
      else
        torrentLoop pieceSize buffer2 sha12 pieces (data.drop k)
termination_by data.length
decreasing_by
  all_goals
    simp only [List.length_drop]
    rcases data with _ | ⟨b, rest⟩
    · exact absurd rfl hdata
    · simp only [List.length_cons] at *
      omega

/-- Go `MultiHasher.Write` (main.go:219-272).  The Go method returns an
`error` that is always `nil`; the model returns the new state. -/
def MultiHasher.Write (mh : MultiHasher) (data : Chunk) : MultiHasher :=
  let fres := filePieceLoop mh.pieceSize mh.filePieceSHA256
      mh.filePieceBuffer mh.currentFilePieceList data
  let tres := torrentLoop mh.pieceSize mh.torrentPieceBuffer
      mh.torrentPieceSHA1 mh.torrentPieces data
  { mh with
      fileSHA256 := mh.fileSHA256 ++ data
      currentFileByteCount := mh.currentFileByteCount + (data.length : Int)
      filePieceSHA256 := fres.1
      filePieceBuffer := fres.2.1
      currentFilePieceList := fres.2.2
      torrentPieceBuffer := tres.1
      torrentPieceSHA1 := tres.2.1
      torrentPieces := tres.2.2 }

/-- Go `MultiHasher.EndFile` (main.go:274-294): flush a nonzero partial
per-file piece, build the `FileHashResult`, append it to `results` and
return it.  Go's `hash.Sum` does not reset hash state, so no per-file
state other than `currentFilePieceList` changes. -/
def MultiHasher.EndFile (mh : MultiHasher) : MultiHasher × FileHashResult :=
  let pieceList :=
    if mh.filePieceBuffer > 0 then
      mh.currentFilePieceList ++ [mh.filePieceSHA256]
    else mh.currentFilePieceList
  let result : FileHashResult :=
    { relPath := mh.currentFileRelPath
      size := mh.currentFileByteCount
      fileSHA256 := mh.fileSHA256
      pieceHashes := pieceList
      err := none }
  ({ mh with
       currentFilePieceList := pieceList
       results := mh.results ++ [result] }, result)

/-- Go `MultiHasher.Finalize` (main.go:296-302): flush a nonzero
partial torrent piece. -/
def MultiHasher.Finalize (mh : MultiHasher) : MultiHasher :=
  if mh.torrentPieceBuffer.length > 0 then
    { mh with torrentPieces := mh.torrentPieces ++ [mh.torrentPieceSHA1] }
  else mh

/-- Go `MultiHasher.GetTorrentPieces` (main.go:304-306), as the list of
emitted piece digests (Go returns their concatenation). -/
def MultiHasher.GetTorrentPieces (mh : MultiHasher) : List Chunk :=
  mh.torrentPieces

/-- Go `MultiHasher.GetResults` (main.go:308-310). -/
def MultiHasher.GetResults (mh : MultiHasher) : List FileHashResult :=
  mh.results

/-! ### The orchestrator loop of `main` (main.go:364-407), restricted to
the hashing calls: each file is `StartFile`, a sequence of `Write`
calls with the chunks read from it, then `EndFile`; after the last
file, `Finalize`. -/

/-- One file's processing: `StartFile`, the file's chunks through
`Write` in order, then `EndFile`. -/
def processFile (mh : MultiHasher) (relPath : String) (chunks : List Chunk) :
    MultiHasher × FileHashResult :=
  ((chunks.foldl MultiHasher.Write (mh.StartFile relPath)).EndFile)

/-- Process a list of files in order (main.go:364-405). -/
def processFiles (mh : MultiHasher) (files : List (String × List Chunk)) :
    MultiHasher :=
  files.foldl (fun m f => (processFile m f.1 f.2).1) mh

/-- A whole run: fresh hasher, all files, `Finalize` (main.go:356-407). -/
def run (pieceSize : Int) (files : List (String × List Chunk)) : MultiHasher :=
  (processFiles (NewMultiHasher pieceSize) files).Finalize

/-- Total number of bytes in a list of chunks. -/
def sumLen (l : List Chunk) : Nat := (l.map List.length).sum

/-- Total number of bytes of a run's input. -/
def totalBytes (files : List (String × List Chunk)) : Nat :=
  (files.map (fun f => sumLen f.2)).sum

/-! ### Proof-side auxiliary definitions -/

/-- One byte through a piece accumulator `(hash, buf, pieces)`:
append the byte, and emit/reset when the accumulator reaches exactly
`pieceSize` bytes.  `filePieceLoop`/`torrentLoop` are proved equal to a
fold of this step (under the engine's invariant), which makes chunk
boundaries disappear. -/
def fileByteStep (pieceSize : Int) (st : Chunk × Int × List Chunk) (b : Nat) :
    Chunk × Int × List Chunk :=
  let hash2 := st.1 ++ [b]
  let buf2 := st.2.1 + 1
  if buf2 = pieceSize then ([], 0, st.2.2 ++ [hash2]) else (hash2, buf2, st.2.2)

/-- The piece-accounting invariant of spec §3: every piece digest but
possibly the last covers exactly `ps` bytes, the last covers a nonzero
number of bytes and at most `ps`, and the covered byte counts sum to
`size`. -/
def pieceAccounting (ps : Int) (pieces : List Chunk) (size : Int) : Prop :=
  (∀ p ∈ pieces.dropLast, (p.length : Int) = ps) ∧
  (∀ p ∈ pieces.getLast?, 0 < p.length ∧ (p.length : Int) ≤ ps) ∧
  ((pieces.map List.length).sum : Int) = size

/-- The operations of the hasher that mutate piece buffers, for
stating buffer-bound invariants over arbitrary call sequences. -/
inductive HOp where
  | start (relPath : String)
  | write (data : Chunk)
deriving Repr

/-- Apply one `HOp`. -/
def applyHOp (mh : MultiHasher) : HOp → MultiHasher
  | HOp.start p => mh.StartFile p
  | HOp.write d => mh.Write d

/-- Apply a sequence of `HOp`s in order. -/
def applyHOps (mh : MultiHasher) (ops : List HOp) : MultiHasher :=
  ops.foldl applyHOp mh

/-- Invariant of one piece accumulator `(hash, buf, pieces)`: the byte
counter equals the number of bytes in the partial hash, it is below the
piece size, and every emitted piece covers exactly `ps` bytes. -/
def pieceStInv (ps : Int) (st : Chunk × Int × List Chunk) : Prop :=
  st.2.1 = (st.1.length : Int) ∧ st.2.1 < ps ∧
  ∀ p ∈ st.2.2, (p.length : Int) = ps

/-- The cross-file (run-wide) invariant of the engine, holding after
`NewMultiHasher` and preserved by every operation of a well-formed run. -/
def RunInv (ps : Int) (mh : MultiHasher) : Prop :=
  mh.pieceSize = ps ∧ 0 < ps ∧
  mh.torrentPieceSHA1 = mh.torrentPieceBuffer ∧
  (mh.torrentPieceBuffer.length : Int) < ps ∧
  (∀ p ∈ mh.torrentPieces, (p.length : Int) = ps) ∧
  0 ≤ mh.filePieceBuffer ∧ mh.filePieceBuffer < ps

/-- Bytes accounted for by the cross-file accumulator: full pieces plus
the partial buffer. -/
def torBytes (mh : MultiHasher) : Int :=
  mh.pieceSize * mh.torrentPieces.length + mh.torrentPieceBuffer.length

/-- The per-file invariant holding between the `Write` calls of one
file: the per-file accumulator is well formed and
`currentFileByteCount` counts its emitted plus buffered bytes. -/
def FileInv (ps : Int) (mh : MultiHasher) : Prop :=
  pieceStInv ps (mh.filePieceSHA256, mh.filePieceBuffer,
    mh.currentFilePieceList) ∧
  mh.currentFileByteCount
    = ps * mh.currentFilePieceList.length + mh.filePieceBuffer

/-- The components of the state that determine a file's
`FileHashResult`: configuration plus all per-file fields. -/
def perFileState (mh : MultiHasher) :
    Int × Chunk × Chunk × Int × List Chunk × Int × String :=
  (mh.pieceSize, mh.fileSHA256, mh.filePieceSHA256, mh.filePieceBuffer,
   mh.currentFilePieceList, mh.currentFileByteCount, mh.currentFileRelPath)

/-! ### Mirror URL construction (main.go:443-458 and 487-506) -/

/-- Go `strings.TrimRight(m, "/")` on a string viewed as a character
list: remove all trailing `'/'` characters. -/
def trimRightSlash (m : List Char) : List Char :=
  (m.reverse.dropWhile (fun c => c = '/')).reverse

/-- The per-file metalink URL built for one mirror (main.go:443-458).
`relPath` is `baseName ++ "/" ++ fiRelPath` for a directory input and
`fiRelPath` itself for a single file; the verbatim override applies
only when the input is not a directory and the mirror ends with the
file's relative path. -/
def metalinkMirrorURL (isDir : Bool) (baseName fiRelPath m : List Char) :
    List Char :=
  let relPath := if isDir then baseName ++ '/' :: fiRelPath else fiRelPath
  let u := trimRightSlash m ++ '/' :: relPath
  if ¬isDir ∧ fiRelPath.isSuffixOf m then m else u

/-- The torrent web-seed URL list (main.go:487-506): for directories
each mirror becomes `trimRight(m, "/") ++ "/"`; for a single file the
mirror is used verbatim when it ends with the base name, else joined
with the base name. -/
def torrentURLList (isDir : Bool) (baseName : List Char)
    (mirrors : List (List Char)) : List (List Char) :=
  if isDir then
    mirrors.map (fun m => trimRightSlash m ++ ['/'])
  else
    mirrors.map (fun m =>
      if baseName.isSuffixOf m then m else trimRightSlash m ++ '/' :: baseName)

/-! ## Lemmas: the chunked piece loops are folds of a byte step -/

lemma foldl_fileByteStep_no_emit (ps : Int) :
    ∀ (data : Chunk) (hash : Chunk) (buf : Int) (pieces : List Chunk),
      buf + (data.length : Int) < ps →
      data.foldl (fileByteStep ps) (hash, buf, pieces)
        = (hash ++ data, buf + (data.length : Int), pieces)
  | [], hash, buf, pieces, _ => by simp
  | b :: rest, hash, buf, pieces, h => by
    have hlen : ((b :: rest).length : Int) = (rest.length : Int) + 1 := by
      push_cast [List.length_cons]; ring
    have hne : buf + 1 ≠ ps := by rw [hlen] at h; omega
    simp only [List.foldl_cons, fileByteStep, if_neg hne]
    rw [foldl_fileByteStep_no_emit ps rest (hash ++ [b]) (buf + 1) pieces
      (by rw [hlen] at h; omega)]
    rw [hlen]
    refine congrArg₂ _ (by simp) (congrArg₂ _ (by ring) rfl)

lemma foldl_fileByteStep_emit_last (ps : Int) :
    ∀ (data : Chunk) (hash : Chunk) (buf : Int) (pieces : List Chunk),
      data ≠ [] →
      buf + (data.length : Int) = ps →
      data.foldl (fileByteStep ps) (hash, buf, pieces)
        = ([], 0, pieces ++ [hash ++ data])
  | [], _, _, _, hne, _ => absurd rfl hne
  | b :: rest, hash, buf, pieces, _, h => by
    have hlen : ((b :: rest).length : Int) = (rest.length : Int) + 1 := by
      push_cast [List.length_cons]; ring
    rcases List.eq_nil_or_concat rest with hrest | _
    · subst hrest
      have hps : buf + 1 = ps := by rw [hlen] at h; simp at h; omega
      simp [fileByteStep, hps]
    · have hrne : rest ≠ [] := by
        rintro rfl
        simp at *
      have hne : buf + 1 ≠ ps := by
        rw [hlen] at h
        have : (0 : Int) < rest.length := by
          cases rest with
          | nil => exact absurd rfl hrne
          | cons c cs =>
            have : 0 < (c :: cs).length := by simp
            exact_mod_cast this
        omega
      simp only [List.foldl_cons, fileByteStep, if_neg hne]
      rw [foldl_fileByteStep_emit_last ps rest (hash ++ [b]) (buf + 1) pieces hrne
        (by rw [hlen] at h; omega)]
      simp

lemma filePieceLoop_eq_foldl (ps : Int) (data hash : Chunk) (buf : Int)
    (pieces : List Chunk) (h0 : 0 ≤ buf) (h1 : buf < ps) :
    filePieceLoop ps hash buf pieces data
      = data.foldl (fileByteStep ps) (hash, buf, pieces) := by
  by_cases hdata : data = []
  · subst hdata
    simp [filePieceLoop]
  · have hcast : ((ps - buf).toNat : Int) = ps - buf :=
      Int.toNat_of_nonneg (by omega)
    have hspos : 0 < (ps - buf).toNat := by omega
    have hlpos : 0 < data.length := List.length_pos.mpr hdata
    have hknz : ¬ (min data.length (ps - buf).toNat = 0) := by omega
    rw [filePieceLoop, dif_neg hdata]
    simp only [dif_neg hknz]
    rcases le_or_lt data.length ((ps - buf).toNat) with hle | hlt
    · have hkeq : min data.length (ps - buf).toNat = data.length :=
        min_eq_left hle
      rw [hkeq, List.take_length, List.drop_length]
      have hlow : buf + (data.length : Int) ≤ ps := by omega
      by_cases hfull : buf + (data.length : Int) = ps
      · rw [if_pos hfull, filePieceLoop,
          foldl_fileByteStep_emit_last ps data hash buf pieces hdata hfull]
        simp
      · rw [if_neg hfull, filePieceLoop,
          foldl_fileByteStep_no_emit ps data hash buf pieces (by omega)]
        simp
    · have hkeq : min data.length (ps - buf).toNat = (ps - buf).toNat :=
        min_eq_right (le_of_lt hlt)
      rw [hkeq]
      have hfull : buf + (((ps - buf).toNat : Nat) : Int) = ps := by omega
      rw [if_pos hfull]
      have htk : (data.take (ps - buf).toNat).length = (ps - buf).toNat := by
        rw [List.length_take]; omega
      have htne : data.take (ps - buf).toNat ≠ [] := by
        intro hnil
        rw [hnil] at htk
        simp at htk
        omega
      rw [filePieceLoop_eq_foldl ps (data.drop (ps - buf).toNat) [] 0
        (pieces ++ [hash ++ data.take (ps - buf).toNat]) le_rfl (by omega)]
      conv_rhs => rw [← List.take_append_drop ((ps - buf).toNat) data]
      rw [List.foldl_append,
        foldl_fileByteStep_emit_last ps (data.take (ps - buf).toNat) hash buf
          pieces htne (by rw [htk]; omega)]
termination_by data.length
decreasing_by
  simp only [List.length_drop]
  omega

/-- With `sha1 = buffer` (which the engine maintains: both receive the
same writes and reset together), the torrent loop is the file-piece
loop applied to `(buffer, buffer.length, pieces)`, with the buffer
recovered from the hash component. -/
lemma torrentLoop_eq_filePieceLoop (ps : Int) (buffer : Chunk)
    (pieces : List Chunk) (data : Chunk) :
    torrentLoop ps buffer buffer pieces data
      = ((filePieceLoop ps buffer (buffer.length : Int) pieces data).1,
         (filePieceLoop ps buffer (buffer.length : Int) pieces data).1,
         (filePieceLoop ps buffer (buffer.length : Int) pieces data).2.2) := by
  by_cases hdata : data = []
  · subst hdata
    simp [torrentLoop, filePieceLoop]
  · by_cases hk : min data.length (ps - (buffer.length : Int)).toNat = 0
    · rw [torrentLoop, dif_neg hdata, filePieceLoop, dif_neg hdata]
      simp only [dif_pos hk]
    · have hkle : min data.length (ps - (buffer.length : Int)).toNat
          ≤ data.length := min_le_left _ _
      have htk : (data.take
            (min data.length (ps - (buffer.length : Int)).toNat)).length
          = min data.length (ps - (buffer.length : Int)).toNat := by
        rw [List.length_take]; omega
      have hlen2 : (((buffer ++ data.take
            (min data.length (ps - (buffer.length : Int)).toNat)).length : Nat) : Int)
          = (buffer.length : Int)
            + ((min data.length (ps - (buffer.length : Int)).toNat : Nat) : Int) := by
        rw [List.length_append, htk]; push_cast; ring
      rw [torrentLoop, dif_neg hdata, filePieceLoop, dif_neg hdata]
      simp only [dif_neg hk]
      rw [hlen2]
      by_cases hful : (buffer.length : Int)
          + ((min data.length (ps - (buffer.length : Int)).toNat : Nat) : Int) = ps
      · rw [if_pos hful, if_pos hful]
        have := torrentLoop_eq_filePieceLoop ps []
          (pieces ++ [buffer ++ data.take
            (min data.length (ps - (buffer.length : Int)).toNat)])
          (data.drop (min data.length (ps - (buffer.length : Int)).toNat))
        simpa using this
      · rw [if_neg hful, if_neg hful]
        have := torrentLoop_eq_filePieceLoop ps
          (buffer ++ data.take
            (min data.length (ps - (buffer.length : Int)).toNat))
          pieces
          (data.drop (min data.length (ps - (buffer.length : Int)).toNat))
        rw [this, hlen2]
termination_by data.length
decreasing_by
  all_goals
    simp only [List.length_drop]
    have : 0 < data.length := List.length_pos.mpr hdata
    omega

lemma fileByteStep_eq (ps : Int) (hash : Chunk) (buf : Int)
    (pieces : List Chunk) (b : Nat) :
    fileByteStep ps (hash, buf, pieces) b
      = if buf + 1 = ps then ([], 0, pieces ++ [hash ++ [b]])
        else (hash ++ [b], buf + 1, pieces) := rfl

lemma foldl_fileByteStep_buf_bounds (ps : Int) (hps : 0 < ps) :
    ∀ (data : Chunk) (st : Chunk × Int × List Chunk),
      0 ≤ st.2.1 → st.2.1 < ps →
      0 ≤ (data.foldl (fileByteStep ps) st).2.1 ∧
        (data.foldl (fileByteStep ps) st).2.1 < ps
  | [], _, h0, h1 => ⟨h0, h1⟩
  | b :: rest, ⟨hash, buf, pieces⟩, h0, h1 => by
    simp only [List.foldl_cons, fileByteStep_eq]
    by_cases hful : buf + 1 = ps
    · rw [if_pos hful]
      exact foldl_fileByteStep_buf_bounds ps hps rest _ le_rfl hps
    · rw [if_neg hful]
      exact foldl_fileByteStep_buf_bounds ps hps rest _
        (show (0 : Int) ≤ buf + 1 by
          have h0' : (0 : Int) ≤ buf := h0
          omega)
        (show buf + 1 < ps by
          have h1' : buf < ps := h1
          omega)

lemma foldl_fileByteStep_buf_eq_len (ps : Int) :
    ∀ (data : Chunk) (st : Chunk × Int × List Chunk),
      st.2.1 = (st.1.length : Int) →
      (data.foldl (fileByteStep ps) st).2.1
        = ((data.foldl (fileByteStep ps) st).1.length : Int)
  | [], _, h => h
  | b :: rest, ⟨hash, buf, pieces⟩, h => by
    simp only [List.foldl_cons, fileByteStep_eq]
    by_cases hful : buf + 1 = ps
    · rw [if_pos hful]
      exact foldl_fileByteStep_buf_eq_len ps rest _ (by simp)
    · rw [if_neg hful]
      refine foldl_fileByteStep_buf_eq_len ps rest _ ?_
      show buf + 1 = ((hash ++ [b]).length : Int)
      have h' : buf = (hash.length : Int) := h
      rw [List.length_append, List.length_singleton]
      push_cast
      omega

lemma foldl_fileByteStep_inv (ps : Int) (hps : 0 < ps) :
    ∀ (data : Chunk) (st : Chunk × Int × List Chunk),
      pieceStInv ps st →
      pieceStInv ps (data.foldl (fileByteStep ps) st)
  | [], _, h => h
  | b :: rest, ⟨hash, buf, pieces⟩, h => by
    obtain ⟨hlink, hlt, hpieces⟩ := h
    have hlink' : buf = (hash.length : Int) := hlink
    have hlt' : buf < ps := hlt
    simp only [List.foldl_cons, fileByteStep_eq]
    by_cases hful : buf + 1 = ps
    · rw [if_pos hful]
      refine foldl_fileByteStep_inv ps hps rest _ ⟨by simp, hps, ?_⟩
      intro p hp
      rcases List.mem_append.mp hp with hp | hp
      · exact hpieces p hp
      · rcases List.mem_singleton.mp hp with rfl
        show ((hash ++ [b]).length : Int) = ps
        rw [List.length_append, List.length_singleton]
        push_cast
        omega
    · rw [if_neg hful]
      refine foldl_fileByteStep_inv ps hps rest _ ⟨?_, ?_, hpieces⟩
      · show buf + 1 = ((hash ++ [b]).length : Int)
        rw [List.length_append, List.length_singleton]
        push_cast
        omega
      · show buf + 1 < ps
        omega

lemma foldl_fileByteStep_bytecount (ps : Int) :
    ∀ (data : Chunk) (st : Chunk × Int × List Chunk),
      ps * ((data.foldl (fileByteStep ps) st).2.2.length : Int)
          + (data.foldl (fileByteStep ps) st).2.1
        = ps * (st.2.2.length : Int) + st.2.1 + (data.length : Int)
  | [], _ => by simp
  | b :: rest, ⟨hash, buf, pieces⟩ => by
    simp only [List.foldl_cons, fileByteStep_eq]
    by_cases hful : buf + 1 = ps
    · rw [if_pos hful,
        foldl_fileByteStep_bytecount ps rest ([], 0, pieces ++ [hash ++ [b]])]
      show ps * (((pieces ++ [hash ++ [b]]).length : Nat) : Int) + 0
          + (rest.length : Int)
        = ps * (pieces.length : Int) + buf + ((b :: rest).length : Int)
      rw [List.length_append, List.length_singleton, ← hful]
      push_cast [List.length_cons]
      ring
    · rw [if_neg hful,
        foldl_fileByteStep_bytecount ps rest (hash ++ [b], buf + 1, pieces)]
      show ps * (pieces.length : Int) + (buf + 1) + (rest.length : Int)
        = ps * (pieces.length : Int) + buf + ((b :: rest).length : Int)
      push_cast [List.length_cons]
      ring

/-! ## Lemmas: `Write` componentwise -/

lemma write_pieceSize (mh : MultiHasher) (d : Chunk) :
    (mh.Write d).pieceSize = mh.pieceSize := rfl

lemma write_results (mh : MultiHasher) (d : Chunk) :
    (mh.Write d).results = mh.results := rfl

lemma write_relPath (mh : MultiHasher) (d : Chunk) :
    (mh.Write d).currentFileRelPath = mh.currentFileRelPath := rfl

lemma write_fileSHA256 (mh : MultiHasher) (d : Chunk) :
    (mh.Write d).fileSHA256 = mh.fileSHA256 ++ d := rfl

lemma write_count (mh : MultiHasher) (d : Chunk) :
    (mh.Write d).currentFileByteCount
      = mh.currentFileByteCount + (d.length : Int) := rfl

/-- The per-file piece fields of `Write` are the byte fold. -/
lemma write_fileTriple (mh : MultiHasher) (d : Chunk)
    (h0 : 0 ≤ mh.filePieceBuffer) (h1 : mh.filePieceBuffer < mh.pieceSize) :
    ((mh.Write d).filePieceSHA256, (mh.Write d).filePieceBuffer,
      (mh.Write d).currentFilePieceList)
      = d.foldl (fileByteStep mh.pieceSize)
          (mh.filePieceSHA256, mh.filePieceBuffer, mh.currentFilePieceList) := by
  show filePieceLoop mh.pieceSize mh.filePieceSHA256 mh.filePieceBuffer
      mh.currentFilePieceList d = _
  exact filePieceLoop_eq_foldl mh.pieceSize d _ _ _ h0 h1

/-- The cross-file piece fields of `Write` are the byte fold on
`(buffer, buffer.length, pieces)`, with `sha1 = buffer` maintained. -/
lemma write_torTriple (mh : MultiHasher) (d : Chunk)
    (ht : mh.torrentPieceSHA1 = mh.torrentPieceBuffer)
    (h2 : (mh.torrentPieceBuffer.length : Int) < mh.pieceSize) :
    ((mh.Write d).torrentPieceBuffer, (mh.Write d).torrentPieceSHA1,
      (mh.Write d).torrentPieces)
      = ((d.foldl (fileByteStep mh.pieceSize)
            (mh.torrentPieceBuffer, (mh.torrentPieceBuffer.length : Int),
              mh.torrentPieces)).1,
         (d.foldl (fileByteStep mh.pieceSize)
            (mh.torrentPieceBuffer, (mh.torrentPieceBuffer.length : Int),
              mh.torrentPieces)).1,
         (d.foldl (fileByteStep mh.pieceSize)
            (mh.torrentPieceBuffer, (mh.torrentPieceBuffer.length : Int),
              mh.torrentPieces)).2.2) := by
  show torrentLoop mh.pieceSize mh.torrentPieceBuffer mh.torrentPieceSHA1
      mh.torrentPieces d = _
  rw [ht, torrentLoop_eq_filePieceLoop,
    filePieceLoop_eq_foldl mh.pieceSize d _ _ _ (Int.natCast_nonneg _) h2]

lemma write_nil (mh : MultiHasher) : mh.Write [] = mh := by
  cases mh
  simp [MultiHasher.Write, filePieceLoop, torrentLoop]

/-- `Write` preserves the run-wide invariant, and advances the
cross-file byte accounting by exactly the chunk length. -/
lemma write_runInv (ps : Int) (mh : MultiHasher) (d : Chunk)
    (h : RunInv ps mh) :
    RunInv ps (mh.Write d)
      ∧ torBytes (mh.Write d) = torBytes mh + (d.length : Int) := by
  obtain ⟨hps, hpos, ht, hlen, hpieces, hf0, hf1⟩ := h
  have hft := write_fileTriple mh d hf0 (by rw [hps]; exact hf1)
  have htt := write_torTriple mh d ht (by rw [hps]; exact hlen)
  rw [Prod.mk.injEq, Prod.mk.injEq] at hft htt
  obtain ⟨hf_hash, hf_buf, hf_list⟩ := hft
  obtain ⟨ht_buf, ht_sha, ht_pieces⟩ := htt
  have htor_inv := foldl_fileByteStep_inv mh.pieceSize (by rw [hps]; exact hpos)
    d (mh.torrentPieceBuffer, (mh.torrentPieceBuffer.length : Int),
      mh.torrentPieces) ⟨rfl, by rw [hps]; exact hlen, by rw [hps]; exact hpieces⟩
  obtain ⟨htor_link, htor_lt, htor_all⟩ := htor_inv
  have hfile_bounds := foldl_fileByteStep_buf_bounds mh.pieceSize
    (by rw [hps]; exact hpos) d
    (mh.filePieceSHA256, mh.filePieceBuffer, mh.currentFilePieceList) hf0
    (by rw [hps]; exact hf1)
  refine ⟨⟨?_, hpos, ?_, ?_, ?_, ?_, ?_⟩, ?_⟩
  · rw [write_pieceSize]; exact hps
  · rw [ht_sha, ht_buf]
  · rw [ht_buf, ← htor_link, ← hps]; exact htor_lt
  · rw [ht_pieces, ← hps]; exact htor_all
  · rw [hf_buf]; exact hfile_bounds.1
  · rw [hf_buf, ← hps]; exact hfile_bounds.2
  · show (mh.Write d).pieceSize * ((mh.Write d).torrentPieces.length : Int)
        + ((mh.Write d).torrentPieceBuffer.length : Int)
      = mh.pieceSize * (mh.torrentPieces.length : Int)
        + (mh.torrentPieceBuffer.length : Int) + (d.length : Int)
    rw [write_pieceSize, ht_pieces, ht_buf, ← htor_link]
    exact foldl_fileByteStep_bytecount mh.pieceSize d
      (mh.torrentPieceBuffer, (mh.torrentPieceBuffer.length : Int),
        mh.torrentPieces)

/-! ## Lemmas: `StartFile`, `EndFile`, per-file accounting -/

lemma startFile_runInv (ps : Int) (mh : MultiHasher) (p : String)
    (h : RunInv ps mh) : RunInv ps (mh.StartFile p) := by
  obtain ⟨hps, hpos, ht, hlen, hpieces, _, _⟩ := h
  exact ⟨hps, hpos, ht, hlen, hpieces, le_rfl, hpos⟩

lemma startFile_torBytes (mh : MultiHasher) (p : String) :
    torBytes (mh.StartFile p) = torBytes mh := rfl

lemma startFile_fileInv (ps : Int) (mh : MultiHasher) (p : String)
    (hpos : 0 < ps) : FileInv ps (mh.StartFile p) := by
  refine ⟨⟨?_, ?_, ?_⟩, ?_⟩
  · show (mh.StartFile p).filePieceBuffer
      = ((mh.StartFile p).filePieceSHA256.length : Int)
    simp [MultiHasher.StartFile]
  · show (mh.StartFile p).filePieceBuffer < ps
    simpa [MultiHasher.StartFile] using hpos
  · show ∀ q ∈ (mh.StartFile p).currentFilePieceList, ((q.length : Nat) : Int) = ps
    simp [MultiHasher.StartFile]
  · show (mh.StartFile p).currentFileByteCount
      = ps * ((mh.StartFile p).currentFilePieceList.length : Int)
        + (mh.StartFile p).filePieceBuffer
    simp [MultiHasher.StartFile]

lemma write_fileInv (ps : Int) (mh : MultiHasher) (d : Chunk)
    (hps : mh.pieceSize = ps) (hpos : 0 < ps) (h : FileInv ps mh) :
    FileInv ps (mh.Write d) := by
  subst hps
  obtain ⟨⟨hlink, hlt, hall⟩, hcount⟩ := h
  have hlink' : mh.filePieceBuffer = (mh.filePieceSHA256.length : Int) := hlink
  have hlt' : mh.filePieceBuffer < mh.pieceSize := hlt
  have hall' : ∀ p ∈ mh.currentFilePieceList, (p.length : Int) = mh.pieceSize :=
    hall
  have hft := write_fileTriple mh d
    (by rw [hlink']; exact Int.natCast_nonneg _) hlt'
  rw [Prod.mk.injEq, Prod.mk.injEq] at hft
  obtain ⟨h1, h2, h3⟩ := hft
  have hinv := foldl_fileByteStep_inv mh.pieceSize hpos d
    (mh.filePieceSHA256, mh.filePieceBuffer, mh.currentFilePieceList)
    ⟨hlink', hlt', hall'⟩
  obtain ⟨hi1, hi2, hi3⟩ := hinv
  have hbc : mh.pieceSize
        * ((d.foldl (fileByteStep mh.pieceSize)
            (mh.filePieceSHA256, mh.filePieceBuffer,
              mh.currentFilePieceList)).2.2.length : Int)
        + (d.foldl (fileByteStep mh.pieceSize)
            (mh.filePieceSHA256, mh.filePieceBuffer,
              mh.currentFilePieceList)).2.1
      = mh.pieceSize * (mh.currentFilePieceList.length : Int)
        + mh.filePieceBuffer + (d.length : Int) :=
    foldl_fileByteStep_bytecount mh.pieceSize d
      (mh.filePieceSHA256, mh.filePieceBuffer, mh.currentFilePieceList)
  refine ⟨⟨?_, ?_, ?_⟩, ?_⟩
  · show (mh.Write d).filePieceBuffer
      = ((mh.Write d).filePieceSHA256.length : Int)
    rw [h1, h2]; exact hi1
  · show (mh.Write d).filePieceBuffer < mh.pieceSize
    rw [h2]; exact hi2
  · show ∀ q ∈ (mh.Write d).currentFilePieceList,
      ((q.length : Nat) : Int) = mh.pieceSize
    rw [h3]; exact hi3
  · show (mh.Write d).currentFileByteCount
      = mh.pieceSize * ((mh.Write d).currentFilePieceList.length : Int)
        + (mh.Write d).filePieceBuffer
    rw [write_count, h3, h2, hcount]
    linarith [hbc]

lemma endFile_torrent_frame (mh : MultiHasher) :
    (mh.EndFile).1.torrentPieceBuffer = mh.torrentPieceBuffer
      ∧ (mh.EndFile).1.torrentPieceSHA1 = mh.torrentPieceSHA1
      ∧ (mh.EndFile).1.torrentPieces = mh.torrentPieces
      ∧ (mh.EndFile).1.pieceSize = mh.pieceSize
      ∧ (mh.EndFile).1.filePieceBuffer = mh.filePieceBuffer := by
  unfold MultiHasher.EndFile
  by_cases h : mh.filePieceBuffer > 0 <;> simp [h]

lemma endFile_runInv (ps : Int) (mh : MultiHasher)
    (h : RunInv ps mh) : RunInv ps (mh.EndFile).1 := by
  obtain ⟨hps, hpos, ht, hlen, hpieces, hf0, hf1⟩ := h
  obtain ⟨e1, e2, e3, e4, e5⟩ := endFile_torrent_frame mh
  rw [RunInv, e1, e2, e3, e4, e5]
  exact ⟨hps, hpos, ht, hlen, hpieces, hf0, hf1⟩

lemma endFile_torBytes (mh : MultiHasher) :
    torBytes (mh.EndFile).1 = torBytes mh := by
  obtain ⟨e1, _, e3, e4, _⟩ := endFile_torrent_frame mh
  rw [torBytes, e1, e3, e4]; rfl

lemma endFile_results (mh : MultiHasher) :
    (mh.EndFile).1.results = mh.results ++ [(mh.EndFile).2] := by
  unfold MultiHasher.EndFile
  by_cases h : mh.filePieceBuffer > 0 <;> simp [h]

lemma sum_len_const (ps : Int) (l : List Chunk)
    (h : ∀ p ∈ l, (p.length : Int) = ps) :
    ((l.map List.length).sum : Int) = ps * l.length := by
  induction l with
  | nil => simp
  | cons a t ih =>
    have ha := h a (List.mem_cons_self a t)
    have ht := ih (fun p hp => h p (List.mem_cons_of_mem a hp))
    simp only [List.map_cons, List.sum_cons, List.length_cons]
    rw [Nat.cast_add, ht, ha]
    push_cast
    ring

/-- `EndFile`'s result satisfies the piece-accounting invariant. -/
lemma endFile_accounting (ps : Int) (mh : MultiHasher)
    (hpos : 0 < ps) (h : FileInv ps mh) :
    pieceAccounting ps (mh.EndFile).2.pieceHashes (mh.EndFile).2.size := by
  obtain ⟨⟨hlink, hlt, hall⟩, hcount⟩ := h
  have hlink' : mh.filePieceBuffer = (mh.filePieceSHA256.length : Int) := hlink
  have hlt' : mh.filePieceBuffer < ps := hlt
  have hall' : ∀ p ∈ mh.currentFilePieceList, (p.length : Int) = ps := hall
  have hsum := sum_len_const ps mh.currentFilePieceList hall'
  unfold MultiHasher.EndFile
  by_cases hb : mh.filePieceBuffer > 0
  · simp only [if_pos hb]
    refine ⟨?_, ?_, ?_⟩
    · intro p hp
      rw [List.dropLast_concat] at hp
      exact hall' p hp
    · intro p hp
      rw [List.getLast?_concat] at hp
      rcases Option.mem_some_iff.mp hp with rfl
      constructor
      · omega
      · rw [← hlink']; omega
    · show (((mh.currentFilePieceList ++ [mh.filePieceSHA256]).map
          List.length).sum : Int) = mh.currentFileByteCount
      rw [List.map_append, List.sum_append]
      simp only [List.map_cons, List.map_nil, List.sum_cons, List.sum_nil,
        Nat.add_zero]
      rw [Nat.cast_add, hsum, hcount]
      omega
  · simp only [if_neg hb]
    refine ⟨?_, ?_, ?_⟩
    · intro p hp
      exact hall' p (List.mem_of_mem_dropLast hp)
    · intro p hp
      have hmem := List.mem_of_mem_getLast? hp
      have := hall' p hmem
      constructor
      · omega
      · omega
    · show ((mh.currentFilePieceList.map List.length).sum : Int)
        = mh.currentFileByteCount
      rw [hsum, hcount]
      omega

/-! ## Lemmas: whole runs -/

lemma sumLen_cons (c : Chunk) (t : List Chunk) :
    sumLen (c :: t) = c.length + sumLen t := by
  simp [sumLen]

lemma totalBytes_cons (f : String × List Chunk)
    (t : List (String × List Chunk)) :
    totalBytes (f :: t) = sumLen f.2 + totalBytes t := by
  simp [totalBytes]

lemma newMultiHasher_runInv (ps : Int) (hpos : 0 < ps) :
    RunInv ps (NewMultiHasher ps) := by
  refine ⟨rfl, hpos, rfl, ?_, ?_, le_rfl, hpos⟩
  · show (([] : Chunk).length : Int) < ps
    simpa using hpos
  · show ∀ p ∈ ([] : List Chunk), (p.length : Int) = ps
    simp

lemma newMultiHasher_torBytes (ps : Int) : torBytes (NewMultiHasher ps) = 0 := by
  simp [torBytes, NewMultiHasher]

lemma foldl_write_runInv (ps : Int) (chunks : List Chunk) (mh : MultiHasher)
    (h : RunInv ps mh) :
    RunInv ps (chunks.foldl MultiHasher.Write mh)
      ∧ torBytes (chunks.foldl MultiHasher.Write mh)
        = torBytes mh + (sumLen chunks : Int) := by
  induction chunks generalizing mh with
  | nil =>
    refine ⟨h, ?_⟩
    simp [sumLen]
  | cons c t ih =>
    obtain ⟨h1, h2⟩ := write_runInv ps mh c h
    obtain ⟨g1, g2⟩ := ih (mh.Write c) h1
    refine ⟨g1, ?_⟩
    rw [List.foldl_cons, g2, h2, sumLen_cons]
    push_cast
    ring

lemma foldl_write_fileInv (ps : Int) (chunks : List Chunk) (mh : MultiHasher)
    (hps : mh.pieceSize = ps) (hpos : 0 < ps) (h : FileInv ps mh) :
    FileInv ps (chunks.foldl MultiHasher.Write mh) := by
  induction chunks generalizing mh with
  | nil => exact h
  | cons c t ih =>
    rw [List.foldl_cons]
    exact ih (mh.Write c) (by rw [write_pieceSize]; exact hps)
      (write_fileInv ps mh c hps hpos h)

lemma foldl_write_results (chunks : List Chunk) (mh : MultiHasher) :
    (chunks.foldl MultiHasher.Write mh).results = mh.results := by
  induction chunks generalizing mh with
  | nil => rfl
  | cons c t ih =>
    rw [List.foldl_cons, ih]
    rfl

lemma foldl_write_pieceSize (chunks : List Chunk) (mh : MultiHasher) :
    (chunks.foldl MultiHasher.Write mh).pieceSize = mh.pieceSize := by
  induction chunks generalizing mh with
  | nil => rfl
  | cons c t ih =>
    rw [List.foldl_cons, ih]
    rfl

lemma processFile_runInv (ps : Int) (mh : MultiHasher) (p : String)
    (chunks : List Chunk) (h : RunInv ps mh) :
    RunInv ps (processFile mh p chunks).1
      ∧ torBytes (processFile mh p chunks).1
        = torBytes mh + (sumLen chunks : Int) := by
  obtain ⟨g1, g2⟩ := foldl_write_runInv ps chunks (mh.StartFile p)
    (startFile_runInv ps mh p h)
  refine ⟨endFile_runInv ps _ g1, ?_⟩
  show torBytes ((chunks.foldl MultiHasher.Write (mh.StartFile p)).EndFile).1 = _
  rw [endFile_torBytes, g2, startFile_torBytes]

lemma processFile_accounting (ps : Int) (mh : MultiHasher) (p : String)
    (chunks : List Chunk) (h : RunInv ps mh) :
    pieceAccounting ps (processFile mh p chunks).2.pieceHashes
      (processFile mh p chunks).2.size := by
  obtain ⟨hps, hpos, _, _, _, _, _⟩ := h
  exact endFile_accounting ps _ hpos
    (foldl_write_fileInv ps chunks (mh.StartFile p) hps hpos
      (startFile_fileInv ps mh p hpos))

lemma processFile_results (mh : MultiHasher) (p : String)
    (chunks : List Chunk) :
    (processFile mh p chunks).1.results
      = mh.results ++ [(processFile mh p chunks).2] := by
  show ((chunks.foldl MultiHasher.Write (mh.StartFile p)).EndFile).1.results = _
  rw [endFile_results, foldl_write_results]
  rfl

lemma processFile_pieceSize (mh : MultiHasher) (p : String)
    (chunks : List Chunk) :
    (processFile mh p chunks).1.pieceSize = mh.pieceSize := by
  show ((chunks.foldl MultiHasher.Write (mh.StartFile p)).EndFile).1.pieceSize = _
  obtain ⟨_, _, _, e4, _⟩ := endFile_torrent_frame
    (chunks.foldl MultiHasher.Write (mh.StartFile p))
  rw [e4, foldl_write_pieceSize]
  rfl

lemma processFiles_runInv (ps : Int) (files : List (String × List Chunk))
    (mh : MultiHasher) (h : RunInv ps mh) :
    RunInv ps (processFiles mh files)
      ∧ torBytes (processFiles mh files)
        = torBytes mh + (totalBytes files : Int) := by
  induction files generalizing mh with
  | nil =>
    refine ⟨h, ?_⟩
    simp [totalBytes, processFiles]
  | cons f t ih =>
    obtain ⟨h1, h2⟩ := processFile_runInv ps mh f.1 f.2 h
    obtain ⟨g1, g2⟩ := ih (processFile mh f.1 f.2).1 h1
    refine ⟨g1, ?_⟩
    show torBytes (processFiles (processFile mh f.1 f.2).1 t) = _
    rw [g2, h2, totalBytes_cons]
    push_cast
    ring

lemma finalize_results (mh : MultiHasher) :
    (mh.Finalize).results = mh.results := by
  unfold MultiHasher.Finalize
  split <;> rfl

/-- After `Finalize`, the cross-file piece stream satisfies the piece
accounting invariant against the bytes fed into the accumulator. -/
lemma finalize_accounting (ps : Int) (mh : MultiHasher)
    (h : RunInv ps mh) :
    pieceAccounting ps (mh.Finalize).torrentPieces (torBytes mh) := by
  obtain ⟨hps, hpos, ht, hlen, hpieces, _, _⟩ := h
  have hsum := sum_len_const ps mh.torrentPieces hpieces
  unfold MultiHasher.Finalize torBytes
  by_cases hb : mh.torrentPieceBuffer.length > 0
  · simp only [if_pos hb]
    refine ⟨?_, ?_, ?_⟩
    · intro p hp
      rw [List.dropLast_concat] at hp
      exact hpieces p hp
    · intro p hp
      rw [List.getLast?_concat] at hp
      rcases Option.mem_some_iff.mp hp with rfl
      rw [ht]
      exact ⟨hb, le_of_lt hlen⟩
    · show (((mh.torrentPieces ++ [mh.torrentPieceSHA1]).map
          List.length).sum : Int)
        = mh.pieceSize * (mh.torrentPieces.length : Int)
          + (mh.torrentPieceBuffer.length : Int)
      rw [List.map_append, List.sum_append]
      simp only [List.map_cons, List.map_nil, List.sum_cons, List.sum_nil,
        Nat.add_zero]
      rw [Nat.cast_add, hsum, ht, hps]
  · simp only [if_neg hb]
    refine ⟨?_, ?_, ?_⟩
    · intro p hp
      exact hpieces p (List.mem_of_mem_dropLast hp)
    · intro p hp
      have := hpieces p (List.mem_of_mem_getLast? hp)
      exact ⟨by omega, by omega⟩
    · show ((mh.torrentPieces.map List.length).sum : Int)
        = mh.pieceSize * (mh.torrentPieces.length : Int)
          + (mh.torrentPieceBuffer.length : Int)
      rw [hsum, hps]
      omega

lemma finalize_length (mh : MultiHasher) :
    (mh.Finalize).torrentPieces.length
      = mh.torrentPieces.length
        + (if 0 < mh.torrentPieceBuffer.length then 1 else 0) := by
  unfold MultiHasher.Finalize
  by_cases hb : mh.torrentPieceBuffer.length > 0 <;> simp [hb]

/-! ## Lemmas: a file's result is independent of the incoming state -/

lemma perFileState_write (mh1 mh2 : MultiHasher) (d : Chunk)
    (h : perFileState mh1 = perFileState mh2) :
    perFileState (mh1.Write d) = perFileState (mh2.Write d) := by
  simp only [perFileState, Prod.mk.injEq] at h ⊢
  obtain ⟨e1, e2, e3, e4, e5, e6, e7⟩ := h
  refine ⟨?_, ?_, ?_, ?_, ?_, ?_, ?_⟩
  · rw [write_pieceSize, write_pieceSize, e1]
  · rw [write_fileSHA256, write_fileSHA256, e2]
  · show (filePieceLoop mh1.pieceSize mh1.filePieceSHA256 mh1.filePieceBuffer
        mh1.currentFilePieceList d).1 = (filePieceLoop mh2.pieceSize
        mh2.filePieceSHA256 mh2.filePieceBuffer mh2.currentFilePieceList d).1
    rw [e1, e3, e4, e5]
  · show (filePieceLoop mh1.pieceSize mh1.filePieceSHA256 mh1.filePieceBuffer
        mh1.currentFilePieceList d).2.1 = (filePieceLoop mh2.pieceSize
        mh2.filePieceSHA256 mh2.filePieceBuffer mh2.currentFilePieceList d).2.1
    rw [e1, e3, e4, e5]
  · show (filePieceLoop mh1.pieceSize mh1.filePieceSHA256 mh1.filePieceBuffer
        mh1.currentFilePieceList d).2.2 = (filePieceLoop mh2.pieceSize
        mh2.filePieceSHA256 mh2.filePieceBuffer mh2.currentFilePieceList d).2.2
    rw [e1, e3, e4, e5]
  · rw [write_count, write_count, e6]
  · rw [write_relPath, write_relPath, e7]

lemma perFileState_foldl_write (chunks : List Chunk) (mh1 mh2 : MultiHasher)
    (h : perFileState mh1 = perFileState mh2) :
    perFileState (chunks.foldl MultiHasher.Write mh1)
      = perFileState (chunks.foldl MultiHasher.Write mh2) := by
  induction chunks generalizing mh1 mh2 with
  | nil => exact h
  | cons c t ih =>
    rw [List.foldl_cons, List.foldl_cons]
    exact ih _ _ (perFileState_write mh1 mh2 c h)

lemma perFileState_startFile (mh1 mh2 : MultiHasher) (p : String)
    (h : mh1.pieceSize = mh2.pieceSize) :
    perFileState (mh1.StartFile p) = perFileState (mh2.StartFile p) := by
  simp [perFileState, MultiHasher.StartFile, h]

lemma endFile_result_congr (mh1 mh2 : MultiHasher)
    (h : perFileState mh1 = perFileState mh2) :
    (mh1.EndFile).2 = (mh2.EndFile).2 := by
  simp only [perFileState, Prod.mk.injEq] at h
  obtain ⟨e1, e2, e3, e4, e5, e6, e7⟩ := h
  unfold MultiHasher.EndFile
  rw [e2, e3, e4, e5, e6, e7]

/-- The `FileHashResult` produced for a file depends only on the piece
size, the path and the file's chunks — not on the rest of the incoming
state. -/
lemma processFile_result_independent (mh : MultiHasher) (p : String)
    (chunks : List Chunk) :
    (processFile mh p chunks).2
      = (processFile (NewMultiHasher mh.pieceSize) p chunks).2 := by
  apply endFile_result_congr
  apply perFileState_foldl_write
  exact perFileState_startFile mh (NewMultiHasher mh.pieceSize) p rfl

/-- Results are collected in file order, one per file. -/
lemma processFiles_results (mh : MultiHasher)
    (files : List (String × List Chunk)) :
    (processFiles mh files).results
      = mh.results ++ files.map
          (fun f => (processFile (NewMultiHasher mh.pieceSize) f.1 f.2).2) := by
  induction files generalizing mh with
  | nil => simp [processFiles]
  | cons f t ih =>
    show (processFiles (processFile mh f.1 f.2).1 t).results = _
    rw [ih, processFile_results, processFile_pieceSize,
      processFile_result_independent]
    simp [List.append_assoc]

/-! ## Lemmas: `Write` is a homomorphism on chunks -/

lemma multiHasher_ext (mh1 mh2 : MultiHasher)
    (hps : mh1.pieceSize = mh2.pieceSize)
    (htb : mh1.torrentPieceBuffer = mh2.torrentPieceBuffer)
    (hts : mh1.torrentPieceSHA1 = mh2.torrentPieceSHA1)
    (htp : mh1.torrentPieces = mh2.torrentPieces)
    (hf : mh1.fileSHA256 = mh2.fileSHA256)
    (hfp : mh1.filePieceSHA256 = mh2.filePieceSHA256)
    (hfb : mh1.filePieceBuffer = mh2.filePieceBuffer)
    (hcl : mh1.currentFilePieceList = mh2.currentFilePieceList)
    (hcc : mh1.currentFileByteCount = mh2.currentFileByteCount)
    (hcr : mh1.currentFileRelPath = mh2.currentFileRelPath)
    (hr : mh1.results = mh2.results) : mh1 = mh2 := by
  cases mh1
  cases mh2
  simp_all

lemma write_write (mh : MultiHasher) (a b : Chunk)
    (hpos : 0 < mh.pieceSize)
    (h0 : 0 ≤ mh.filePieceBuffer) (h1 : mh.filePieceBuffer < mh.pieceSize)
    (ht : mh.torrentPieceSHA1 = mh.torrentPieceBuffer)
    (h2 : (mh.torrentPieceBuffer.length : Int) < mh.pieceSize) :
    (mh.Write a).Write b = mh.Write (a ++ b) := by
  have hfa := write_fileTriple mh a h0 h1
  have hta := write_torTriple mh a ht h2
  have hWps : (mh.Write a).pieceSize = mh.pieceSize := write_pieceSize mh a
  -- bounds at the intermediate state
  have hmidf := foldl_fileByteStep_buf_bounds mh.pieceSize hpos a
    (mh.filePieceSHA256, mh.filePieceBuffer, mh.currentFilePieceList) h0 h1
  have hWf0 : 0 ≤ (mh.Write a).filePieceBuffer := by
    have := congrArg (fun t => t.2.1) hfa
    simp only at this
    rw [this]; exact hmidf.1
  have hWf1 : (mh.Write a).filePieceBuffer < (mh.Write a).pieceSize := by
    have := congrArg (fun t => t.2.1) hfa
    simp only at this
    rw [this, hWps]; exact hmidf.2
  have htlink := foldl_fileByteStep_buf_eq_len mh.pieceSize a
    (mh.torrentPieceBuffer, (mh.torrentPieceBuffer.length : Int),
      mh.torrentPieces) rfl
  have htbound := foldl_fileByteStep_buf_bounds mh.pieceSize hpos a
    (mh.torrentPieceBuffer, (mh.torrentPieceBuffer.length : Int),
      mh.torrentPieces) (Int.natCast_nonneg _) h2
  have hWtb := congrArg (fun t => t.1) hta
  have hWts := congrArg (fun t => t.2.1) hta
  have hWtp := congrArg (fun t => t.2.2) hta
  simp only at hWtb hWts hWtp
  have hWt : (mh.Write a).torrentPieceSHA1 = (mh.Write a).torrentPieceBuffer := by
    rw [hWtb, hWts]
  have hWt2 : ((mh.Write a).torrentPieceBuffer.length : Int)
      < (mh.Write a).pieceSize := by
    rw [hWtb, hWps, ← htlink]
    exact htbound.2
  have hfb := write_fileTriple (mh.Write a) b hWf0 hWf1
  have htb := write_torTriple (mh.Write a) b hWt hWt2
  have hfab := write_fileTriple mh (a ++ b) h0 h1
  have htab := write_torTriple mh (a ++ b) ht h2
  rw [List.foldl_append] at hfab htab
  rw [hfa, hWps] at hfb
  -- rewrite the torrent entry state of the second write into the fold result
  have hentry : ((mh.Write a).torrentPieceBuffer,
      ((mh.Write a).torrentPieceBuffer.length : Int), (mh.Write a).torrentPieces)
      = a.foldl (fileByteStep mh.pieceSize)
          (mh.torrentPieceBuffer, (mh.torrentPieceBuffer.length : Int),
            mh.torrentPieces) := by
    rw [hWtb, hWtp, ← htlink]
  rw [hWps, hentry] at htb
  have htb1 := congrArg (fun t => t.1) htb
  have htb2 := congrArg (fun t => t.2.1) htb
  have htb3 := congrArg (fun t => t.2.2) htb
  have htab1 := congrArg (fun t => t.1) htab
  have htab2 := congrArg (fun t => t.2.1) htab
  have htab3 := congrArg (fun t => t.2.2) htab
  have hfb1 := congrArg (fun t => t.1) hfb
  have hfb2 := congrArg (fun t => t.2.1) hfb
  have hfb3 := congrArg (fun t => t.2.2) hfb
  have hfab1 := congrArg (fun t => t.1) hfab
  have hfab2 := congrArg (fun t => t.2.1) hfab
  have hfab3 := congrArg (fun t => t.2.2) hfab
  simp only at htb1 htb2 htb3 htab1 htab2 htab3 hfb1 hfb2 hfb3 hfab1 hfab2 hfab3
  apply multiHasher_ext
  · rw [write_pieceSize, write_pieceSize, write_pieceSize]
  · rw [htb1, htab1]
  · rw [htb2, htab2]
  · rw [htb3, htab3]
  · rw [write_fileSHA256, write_fileSHA256, write_fileSHA256,
      List.append_assoc]
  · rw [hfb1, hfab1]
  · rw [hfb2, hfab2]
  · rw [hfb3, hfab3]
  · rw [write_count, write_count, write_count, List.length_append]
    push_cast
    ring
  · rw [write_relPath, write_relPath, write_relPath]
  · rw [write_results, write_results, write_results]

/-- `Write` preserves the buffer bounds and the `sha1 = buffer` link. -/
lemma write_pkg (mh : MultiHasher) (d : Chunk)
    (hpos : 0 < mh.pieceSize)
    (h0 : 0 ≤ mh.filePieceBuffer) (h1 : mh.filePieceBuffer < mh.pieceSize)
    (ht : mh.torrentPieceSHA1 = mh.torrentPieceBuffer)
    (h2 : (mh.torrentPieceBuffer.length : Int) < mh.pieceSize) :
    0 < (mh.Write d).pieceSize
      ∧ 0 ≤ (mh.Write d).filePieceBuffer
      ∧ (mh.Write d).filePieceBuffer < (mh.Write d).pieceSize
      ∧ (mh.Write d).torrentPieceSHA1 = (mh.Write d).torrentPieceBuffer
      ∧ ((mh.Write d).torrentPieceBuffer.length : Int)
          < (mh.Write d).pieceSize := by
  have hfa := write_fileTriple mh d h0 h1
  have hta := write_torTriple mh d ht h2
  have hWps : (mh.Write d).pieceSize = mh.pieceSize := write_pieceSize mh d
  have hmidf := foldl_fileByteStep_buf_bounds mh.pieceSize hpos d
    (mh.filePieceSHA256, mh.filePieceBuffer, mh.currentFilePieceList) h0 h1
  have hfa2 := congrArg (fun t => t.2.1) hfa
  have hta1 := congrArg (fun t => t.1) hta
  have hta2 := congrArg (fun t => t.2.1) hta
  simp only at hfa2 hta1 hta2
  have htlink := foldl_fileByteStep_buf_eq_len mh.pieceSize d
    (mh.torrentPieceBuffer, (mh.torrentPieceBuffer.length : Int),
      mh.torrentPieces) rfl
  have htbound := foldl_fileByteStep_buf_bounds mh.pieceSize hpos d
    (mh.torrentPieceBuffer, (mh.torrentPieceBuffer.length : Int),
      mh.torrentPieces) (Int.natCast_nonneg _) h2
  refine ⟨by rw [hWps]; exact hpos, ?_, ?_, ?_, ?_⟩
  · rw [hfa2]; exact hmidf.1
  · rw [hfa2, hWps]; exact hmidf.2
  · rw [hta1, hta2]
  · rw [hta1, hWps, ← htlink]; exact htbound.2

/-- Feeding the chunks of a partition one by one equals feeding the
concatenation as a single chunk. -/
lemma foldl_write_flatten (mh : MultiHasher) (chunks : List Chunk)
    (hpos : 0 < mh.pieceSize)
    (h0 : 0 ≤ mh.filePieceBuffer) (h1 : mh.filePieceBuffer < mh.pieceSize)
    (ht : mh.torrentPieceSHA1 = mh.torrentPieceBuffer)
    (h2 : (mh.torrentPieceBuffer.length : Int) < mh.pieceSize) :
    chunks.foldl MultiHasher.Write mh = mh.Write chunks.flatten := by
  induction chunks generalizing mh with
  | nil => exact (write_nil mh).symm
  | cons c t ih =>
    obtain ⟨p1, p2, p3, p4, p5⟩ := write_pkg mh c hpos h0 h1 ht h2
    rw [List.foldl_cons, ih (mh.Write c) p1 p2 p3 p4 p5,
      write_write mh c t.flatten hpos h0 h1 ht h2]
    rfl

/-- Counting: `k` full pieces plus one short piece when `0 < r`
equals the ceiling of `(ps * k + r) / ps`. -/
lemma count_eq_ceil (ps k r : Int) (hpos : 0 < ps) (hr0 : 0 ≤ r)
    (hr1 : r < ps) :
    k + (if 0 < r then 1 else 0) = (ps * k + r + ps - 1) / ps := by
  by_cases h : 0 < r
  · rw [if_pos h]
    have hre : ps * k + r + ps - 1 = (r - 1) + (k + 1) * ps := by ring
    rw [hre, Int.add_mul_ediv_right _ _ (ne_of_gt hpos),
      Int.ediv_eq_zero_of_lt (by omega) (by omega)]
    ring
  · rw [if_neg h]
    have hr : r = 0 := le_antisymm (by omega) hr0
    subst hr
    have hre : ps * k + 0 + ps - 1 = (ps - 1) + k * ps := by ring
    rw [hre, Int.add_mul_ediv_right _ _ (ne_of_gt hpos),
      Int.ediv_eq_zero_of_lt (by omega) (by omega)]
    ring

/-! ## Lemmas: small remaining facts -/

lemma newMultiHasher_pieceSize (ps : Int) :
    (NewMultiHasher ps).pieceSize = ps := rfl

lemma endFile_size (mh : MultiHasher) :
    (mh.EndFile).2.size = mh.currentFileByteCount := by
  unfold MultiHasher.EndFile
  split <;> rfl

lemma endFile_relPath (mh : MultiHasher) :
    (mh.EndFile).2.relPath = mh.currentFileRelPath := by
  unfold MultiHasher.EndFile
  split <;> rfl

lemma foldl_write_count (chunks : List Chunk) (mh : MultiHasher) :
    (chunks.foldl MultiHasher.Write mh).currentFileByteCount
      = mh.currentFileByteCount + (sumLen chunks : Int) := by
  induction chunks generalizing mh with
  | nil => simp [sumLen]
  | cons c t ih =>
    rw [List.foldl_cons, ih, write_count, sumLen_cons]
    push_cast
    ring

lemma applyHOps_pkg (ops : List HOp) (mh : MultiHasher)
    (hpos : 0 < mh.pieceSize)
    (h0 : 0 ≤ mh.filePieceBuffer) (h1 : mh.filePieceBuffer < mh.pieceSize)
    (ht : mh.torrentPieceSHA1 = mh.torrentPieceBuffer)
    (h2 : (mh.torrentPieceBuffer.length : Int) < mh.pieceSize) :
    0 < (applyHOps mh ops).pieceSize
      ∧ (applyHOps mh ops).pieceSize = mh.pieceSize
      ∧ 0 ≤ (applyHOps mh ops).filePieceBuffer
      ∧ (applyHOps mh ops).filePieceBuffer < (applyHOps mh ops).pieceSize
      ∧ (applyHOps mh ops).torrentPieceSHA1
          = (applyHOps mh ops).torrentPieceBuffer
      ∧ ((applyHOps mh ops).torrentPieceBuffer.length : Int)
          < (applyHOps mh ops).pieceSize := by
  induction ops generalizing mh with
  | nil => exact ⟨hpos, rfl, h0, h1, ht, h2⟩
  | cons op t ih =>
    have hstep : applyHOps mh (op :: t) = applyHOps (applyHOp mh op) t := rfl
    rw [hstep]
    cases op with
    | start p =>
      obtain ⟨g1, g2, g3, g4, g5, g6⟩ :=
        ih (mh.StartFile p) hpos le_rfl hpos ht h2
      exact ⟨g1, g2, g3, g4, g5, g6⟩
    | write d =>
      obtain ⟨p1, p2, p3, p4, p5⟩ := write_pkg mh d hpos h0 h1 ht h2
      obtain ⟨g1, g2, g3, g4, g5, g6⟩ := ih (mh.Write d) p1 p2
        (by rw [write_pieceSize] at p3; exact p3) p4
        (by rw [write_pieceSize] at p5; exact p5)
      refine ⟨g1, ?_, g3, g4, g5, g6⟩
      show (applyHOps (mh.Write d) t).pieceSize = mh.pieceSize
      rw [g2, write_pieceSize]

/-! ## Lemmas: the piece-size selector -/

lemma pieceConsts :
    P_MIN ≤ P_CAP ∧ P_CAP ≤ P_MAX ∧ 0 < P_MIN := by
  refine ⟨?_, ?_, ?_⟩ <;> norm_num [P_MIN, P_CAP, P_MAX]

lemma piece_base_eq (total : Int) :
    (if 10 ≤ ilog2 total then max P_MIN (2 ^ (ilog2 total - 10)) else P_MIN)
      = max P_MIN (if 0 ≤ (ilog2 total : Int) - 10
          then 2 ^ ((ilog2 total : Int) - 10).toNat else 0) := by
  by_cases h10 : 10 ≤ ilog2 total
  · rw [if_pos h10, if_pos (by omega)]
    congr 2
    omega
  · rw [if_neg h10, if_neg (by omega)]
    have := pieceConsts
    rw [max_eq_left (by omega)]

lemma piece_cap_eq (x : Int) :
    (if x > P_CAP then P_CAP else x) = min x P_CAP := by
  split_ifs with h <;> omega

lemma piece_clamp_eq (s : Int) :
    (if (if s < P_CAP then P_CAP else s) > P_MAX then P_MAX
      else (if s < P_CAP then P_CAP else s))
      = min (max s P_CAP) P_MAX := by
  have := pieceConsts
  split_ifs <;> omega

lemma piece_floor_eq (x : Int) :
    (if x < P_MIN then P_MIN else x) = max x P_MIN := by
  split_ifs with h <;> omega

/-! ## Lemmas: single-write characterizations for concrete scenarios -/

lemma write_file_no_emit (mh : MultiHasher) (d : Chunk)
    (h0 : 0 ≤ mh.filePieceBuffer)
    (hlt : mh.filePieceBuffer + (d.length : Int) < mh.pieceSize) :
    (mh.Write d).filePieceSHA256 = mh.filePieceSHA256 ++ d
      ∧ (mh.Write d).filePieceBuffer = mh.filePieceBuffer + (d.length : Int)
      ∧ (mh.Write d).currentFilePieceList = mh.currentFilePieceList := by
  have h1 : mh.filePieceBuffer < mh.pieceSize := by
    have hd : (0 : Int) ≤ (d.length : Int) := Int.natCast_nonneg _
    omega
  have hft := write_fileTriple mh d h0 h1
  rw [foldl_fileByteStep_no_emit mh.pieceSize d mh.filePieceSHA256
    mh.filePieceBuffer mh.currentFilePieceList hlt] at hft
  rw [Prod.mk.injEq, Prod.mk.injEq] at hft
  exact hft

lemma write_tor_no_emit (mh : MultiHasher) (d : Chunk)
    (ht : mh.torrentPieceSHA1 = mh.torrentPieceBuffer)
    (hlt : (mh.torrentPieceBuffer.length : Int) + (d.length : Int)
      < mh.pieceSize) :
    (mh.Write d).torrentPieceBuffer = mh.torrentPieceBuffer ++ d
      ∧ (mh.Write d).torrentPieceSHA1 = mh.torrentPieceBuffer ++ d
      ∧ (mh.Write d).torrentPieces = mh.torrentPieces := by
  have h2 : (mh.torrentPieceBuffer.length : Int) < mh.pieceSize := by
    have hd : (0 : Int) ≤ (d.length : Int) := Int.natCast_nonneg _
    omega
  have htt := write_torTriple mh d ht h2
  rw [foldl_fileByteStep_no_emit mh.pieceSize d mh.torrentPieceBuffer
    (mh.torrentPieceBuffer.length : Int) mh.torrentPieces hlt] at htt
  rw [Prod.mk.injEq, Prod.mk.injEq] at htt
  exact htt

lemma write_tor_one_emit (mh : MultiHasher) (d1 d2 : Chunk)
    (ht : mh.torrentPieceSHA1 = mh.torrentPieceBuffer)
    (hd1 : d1 ≠ [])
    (hful : (mh.torrentPieceBuffer.length : Int) + (d1.length : Int)
      = mh.pieceSize)
    (hd2 : (d2.length : Int) < mh.pieceSize) :
    (mh.Write (d1 ++ d2)).torrentPieceBuffer = d2
      ∧ (mh.Write (d1 ++ d2)).torrentPieceSHA1 = d2
      ∧ (mh.Write (d1 ++ d2)).torrentPieces
          = mh.torrentPieces ++ [mh.torrentPieceBuffer ++ d1] := by
  have hlen1 : (0 : Int) < (d1.length : Int) := by
    cases d1 with
    | nil => exact absurd rfl hd1
    | cons x l =>
      have hx : 0 < (x :: l).length := by simp
      exact_mod_cast hx
  have h2 : (mh.torrentPieceBuffer.length : Int) < mh.pieceSize := by omega
  have htt := write_torTriple mh (d1 ++ d2) ht h2
  rw [List.foldl_append,
    foldl_fileByteStep_emit_last mh.pieceSize d1 mh.torrentPieceBuffer
      (mh.torrentPieceBuffer.length : Int) mh.torrentPieces hd1 hful,
    foldl_fileByteStep_no_emit mh.pieceSize d2 []
      0 (mh.torrentPieces ++ [mh.torrentPieceBuffer ++ d1])
      (by simpa using hd2)] at htt
  rw [Prod.mk.injEq, Prod.mk.injEq] at htt
  obtain ⟨a1, a2, a3⟩ := htt
  refine ⟨?_, ?_, a3⟩
  · rw [a1]; simp
  · rw [a2]; simp

lemma endFile_pieceHashes (mh : MultiHasher) :
    (mh.EndFile).2.pieceHashes
      = if mh.filePieceBuffer > 0
        then mh.currentFilePieceList ++ [mh.filePieceSHA256]
        else mh.currentFilePieceList := by
  by_cases h : mh.filePieceBuffer > 0
  · simp [MultiHasher.EndFile, h]
  · simp [MultiHasher.EndFile, h]

/-- A file strictly shorter than the piece size, fed as one chunk from
a fresh hasher, produces exactly one (short) per-file piece digest:
the file's own bytes. -/
lemma short_file_single_piece (ps : Int) (p : String) (c : Chunk)
    (hpos : 0 < c.length) (hlt : (c.length : Int) < ps) :
    ((processFile (NewMultiHasher ps) p [c]).2).pieceHashes = [c] := by
  show ((((NewMultiHasher ps).StartFile p).Write c).EndFile).2.pieceHashes = _
  obtain ⟨w1, w2, w3⟩ := write_file_no_emit ((NewMultiHasher ps).StartFile p) c
    le_rfl (by
      show (0 : Int) + (c.length : Int) < ps
      omega)
  rw [endFile_pieceHashes, w1, w2, w3]
  rw [if_pos (by
    show (0 : Int) + (c.length : Int) > 0
    omega)]
  show ([] : List Chunk) ++ [[] ++ c] = [c]
  simp

/-! ## Claim theorems -/

/-- Claim C1: for every total byte count, the source's
`calculatePieceSize` follows the spec's selection algorithm exactly:
`P_MIN` for `total ≤ 0`; otherwise `current` is
`max(P_MIN, 2^(floor(log2 total) - 10))` capped at `P_CAP`; if
`total / current` exceeds `N_THRESHOLD` then
`2^floor(log2(total / N_THRESHOLD))` clamped into `[P_CAP, P_MAX]`
replaces `current`; finally `current` is clamped to at least `P_MIN`. -/
theorem claim_C1 (total : Int) :
    calculatePieceSize total = select_piece_length total := by
  by_cases h : total ≤ 0
  · simp only [calculatePieceSize, select_piece_length, if_pos h]
  · simp only [calculatePieceSize, select_piece_length, if_neg h]
    rw [piece_base_eq total, piece_cap_eq, piece_clamp_eq, piece_floor_eq]

/-- Claim C5: `calculatePieceSize` is a total function (it is a Lean
function) and always returns a value between `P_MIN` (256 KiB) and
`P_MAX` (64 MiB) inclusive. -/
theorem claim_C5 (total : Int) :
    P_MIN ≤ calculatePieceSize total ∧ calculatePieceSize total ≤ P_MAX := by
  have hc := pieceConsts
  by_cases h : total ≤ 0
  · simp only [calculatePieceSize, if_pos h]
    omega
  · simp only [calculatePieceSize, if_neg h]
    have hmax : P_MIN ≤ max P_MIN ((2 : Int) ^ (ilog2 total - 10)) :=
      le_max_left _ _
    split_ifs <;> omega

/-- Claim C6: `StartFile` resets exactly the per-file state (whole-file
digest, per-file piece digest accumulator, per-file partial-piece byte
count, per-file piece list, per-file byte count), records the new
path, and leaves the piece size, the cross-file piece accumulator, the
cross-file partial-piece buffer, the emitted cross-file piece stream
and the collected results unchanged. -/
theorem claim_C6 (mh : MultiHasher) (p : String) :
    (mh.StartFile p).fileSHA256 = []
      ∧ (mh.StartFile p).filePieceSHA256 = []
      ∧ (mh.StartFile p).filePieceBuffer = 0
      ∧ (mh.StartFile p).currentFilePieceList = []
      ∧ (mh.StartFile p).currentFileByteCount = 0
      ∧ (mh.StartFile p).currentFileRelPath = p
      ∧ (mh.StartFile p).pieceSize = mh.pieceSize
      ∧ (mh.StartFile p).torrentPieceSHA1 = mh.torrentPieceSHA1
      ∧ (mh.StartFile p).torrentPieceBuffer = mh.torrentPieceBuffer
      ∧ (mh.StartFile p).torrentPieces = mh.torrentPieces
      ∧ (mh.StartFile p).results = mh.results :=
  ⟨rfl, rfl, rfl, rfl, rfl, rfl, rfl, rfl, rfl, rfl, rfl⟩

/-- Claim C3: for every partition of a content into chunks (including
empty chunks), feeding the chunks to `Write` in order produces exactly
the same hasher state — hence the same whole-file digest, per-file
piece digest list and cross-file piece contribution — as feeding the
content as one single chunk; and a zero-length chunk leaves the state
unchanged.  The hypotheses are the engine's buffer invariants, which
hold in every reachable state. -/
theorem claim_C3 (mh : MultiHasher)
    (hpos : 0 < mh.pieceSize) (h0 : 0 ≤ mh.filePieceBuffer)
    (h1 : mh.filePieceBuffer < mh.pieceSize)
    (ht : mh.torrentPieceSHA1 = mh.torrentPieceBuffer)
    (h2 : (mh.torrentPieceBuffer.length : Int) < mh.pieceSize)
    (content : Chunk) (chunks : List Chunk)
    (hpart : chunks.flatten = content) :
    chunks.foldl MultiHasher.Write mh = mh.Write content
      ∧ mh.Write [] = mh := by
  subst hpart
  exact ⟨foldl_write_flatten mh chunks hpos h0 h1 ht h2, write_nil mh⟩

theorem claim_C3_witness :
    [[1], [], [2, 3]].foldl MultiHasher.Write (NewMultiHasher 2)
        = (NewMultiHasher 2).Write [1, 2, 3]
      ∧ (NewMultiHasher 2).Write [] = NewMultiHasher 2 :=
  claim_C3 (NewMultiHasher 2) (by decide) (by decide) (by decide) rfl
    (by decide) [1, 2, 3] [[1], [], [2, 3]] rfl

/-- Claim C8: for a single-file input (`isDir = false`, where the
file's relative name equals the base name), a mirror that ends with the
file's relative name is used verbatim as the download URL and as the
torrent web-seed URL; otherwise the mirror with trailing slashes
trimmed is joined with `"/"` and the name.  For directory inputs the
joined form is always used, never the verbatim form. -/
theorem claim_C8 (name base fiRel m : List Char)
    (mirrors : List (List Char)) :
    (metalinkMirrorURL false name name m
        = if name.isSuffixOf m then m
          else trimRightSlash m ++ '/' :: name)
      ∧ (torrentURLList false name mirrors
          = mirrors.map (fun mm => if name.isSuffixOf mm then mm
              else trimRightSlash mm ++ '/' :: name))
      ∧ (metalinkMirrorURL true base fiRel m
          = trimRightSlash m ++ '/' :: (base ++ '/' :: fiRel))
      ∧ (torrentURLList true base mirrors
          = mirrors.map (fun mm => trimRightSlash mm ++ ['/'])) := by
  refine ⟨?_, ?_, ?_, ?_⟩
  · by_cases hs : name.isSuffixOf m
    · simp [metalinkMirrorURL, hs]
    · simp [metalinkMirrorURL, hs]
  · simp [torrentURLList]
  · simp [metalinkMirrorURL]
  · simp [torrentURLList]

/-- Claim C9: after any sequence of `StartFile`/`Write` calls on a
hasher built with positive `pieceSize`, both partial-piece counters —
the per-file byte count `filePieceBuffer` and the cross-file buffer
length — are at least `0` and strictly less than `pieceSize`: a piece
reaching exactly `pieceSize` bytes is emitted and reset within the same
`Write` call, so no full un-emitted piece is ever observable. -/
theorem claim_C9 (ps : Int) (hps : 0 < ps) (ops : List HOp) :
    0 ≤ (applyHOps (NewMultiHasher ps) ops).filePieceBuffer
      ∧ (applyHOps (NewMultiHasher ps) ops).filePieceBuffer < ps
      ∧ 0 ≤ ((applyHOps (NewMultiHasher ps) ops).torrentPieceBuffer.length : Int)
      ∧ ((applyHOps (NewMultiHasher ps) ops).torrentPieceBuffer.length : Int)
          < ps := by
  obtain ⟨g1, g2, g3, g4, g5, g6⟩ := applyHOps_pkg ops (NewMultiHasher ps)
    hps le_rfl hps rfl (by simpa using hps)
  rw [g2] at g4 g6
  exact ⟨g3, g4, Int.natCast_nonneg _, g6⟩

theorem claim_C9_witness :
    0 ≤ (applyHOps (NewMultiHasher 2)
          [HOp.start "a", HOp.write [1, 2, 3]]).filePieceBuffer
      ∧ (applyHOps (NewMultiHasher 2)
          [HOp.start "a", HOp.write [1, 2, 3]]).filePieceBuffer < 2
      ∧ 0 ≤ ((applyHOps (NewMultiHasher 2)
          [HOp.start "a", HOp.write [1, 2, 3]]).torrentPieceBuffer.length : Int)
      ∧ ((applyHOps (NewMultiHasher 2)
          [HOp.start "a", HOp.write [1, 2, 3]]).torrentPieceBuffer.length : Int)
          < 2 :=
  claim_C9 2 (by decide) [HOp.start "a", HOp.write [1, 2, 3]]

/-- Claim C10: the `Size` of the `FileHashResult` returned by `EndFile`
equals the sum of the lengths of all chunks passed to `Write` since the
preceding `StartFile` (the bytes actually read), and `GetResults`
returns the collected results in exactly the order in which the
`StartFile`/`EndFile` pairs were executed — one result per file, each
determined by the piece size and that file's path and chunks. -/
theorem claim_C10 (mh : MultiHasher) (p : String) (chunks : List Chunk)
    (files : List (String × List Chunk)) :
    (processFile mh p chunks).2.size = (sumLen chunks : Int)
      ∧ (processFiles mh files).GetResults
          = mh.GetResults ++ files.map
              (fun f => (processFile (NewMultiHasher mh.pieceSize) f.1 f.2).2) := by
  constructor
  · show ((chunks.foldl MultiHasher.Write (mh.StartFile p)).EndFile).2.size = _
    rw [endFile_size, foldl_write_count]
    show (0 : Int) + (sumLen chunks : Int) = _
    exact zero_add _
  · exact processFiles_results mh files

/-- Claim C2: in any run, every per-file result's piece digest list
covers exactly `PieceLength` bytes per digest except possibly the last
(which covers more than `0` and at most `PieceLength` bytes), and the
covered byte counts sum to the file's size; the cross-file (torrent)
piece stream satisfies the same accounting against the whole run's
total byte count. -/
theorem claim_C2 (ps : Int) (hps : 0 < ps)
    (files : List (String × List Chunk)) :
    (∀ r ∈ (run ps files).GetResults,
        pieceAccounting ps r.pieceHashes r.size)
      ∧ pieceAccounting ps ((run ps files).GetTorrentPieces)
          (totalBytes files : Int) := by
  have hinv := newMultiHasher_runInv ps hps
  obtain ⟨hrun, hbytes⟩ := processFiles_runInv ps files (NewMultiHasher ps) hinv
  constructor
  · intro r hr
    have hres : (run ps files).GetResults
        = files.map (fun f => (processFile (NewMultiHasher ps) f.1 f.2).2) := by
      show ((processFiles (NewMultiHasher ps) files).Finalize).results = _
      rw [finalize_results, processFiles_results]
      rfl
    rw [hres] at hr
    obtain ⟨f, hf, rfl⟩ := List.mem_map.mp hr
    exact processFile_accounting ps (NewMultiHasher ps) f.1 f.2 hinv
  · have hacc := finalize_accounting ps
      (processFiles (NewMultiHasher ps) files) hrun
    rw [hbytes, newMultiHasher_torBytes, zero_add] at hacc
    exact hacc

theorem claim_C2_witness :
    (∀ r ∈ (run 2 [("a", [[1, 2, 3]])]).GetResults,
        pieceAccounting 2 r.pieceHashes r.size)
      ∧ pieceAccounting 2 ((run 2 [("a", [[1, 2, 3]])]).GetTorrentPieces)
          (totalBytes [("a", [[1, 2, 3]])] : Int) :=
  claim_C2 2 (by decide) [("a", [[1, 2, 3]])]

/-- Claim C4: after `Finalize`, the cross-file piece stream contains
exactly `ceil(total_bytes / PieceLength)` digests (written with integer
division as `(total_bytes + PieceLength - 1) / PieceLength`); in
particular a zero-byte run produces an empty cross-file stream. -/
theorem claim_C4 (ps : Int) (hps : 0 < ps)
    (files : List (String × List Chunk)) :
    (((run ps files).GetTorrentPieces).length : Int)
        = ((totalBytes files : Int) + ps - 1) / ps
      ∧ (totalBytes files = 0 → (run ps files).GetTorrentPieces = []) := by
  have hinv := newMultiHasher_runInv ps hps
  obtain ⟨hrun, hbytes⟩ := processFiles_runInv ps files (NewMultiHasher ps) hinv
  rw [newMultiHasher_torBytes, zero_add] at hbytes
  obtain ⟨hps', hpos, ht, hlen, hpieces, _, _⟩ := hrun
  have htb : (totalBytes files : Int)
      = ps * ((processFiles (NewMultiHasher ps) files).torrentPieces.length : Int)
        + ((processFiles (NewMultiHasher ps)
            files).torrentPieceBuffer.length : Int) := by
    rw [← hbytes]
    show torBytes (processFiles (NewMultiHasher ps) files) = _
    rw [torBytes, hps']
  have hcount : (((run ps files).GetTorrentPieces).length : Int)
      = ((processFiles (NewMultiHasher ps) files).torrentPieces.length : Int)
        + (if 0 < ((processFiles (NewMultiHasher ps)
              files).torrentPieceBuffer.length : Int) then 1 else 0) := by
    show ((((processFiles (NewMultiHasher ps)
        files).Finalize).torrentPieces).length : Int) = _
    rw [finalize_length]
    push_cast
    congr 1
    by_cases hb : 0 < (processFiles (NewMultiHasher ps)
        files).torrentPieceBuffer.length
    · rw [if_pos hb, if_pos (by exact_mod_cast hb)]
    · rw [if_neg hb, if_neg (by omega)]
  constructor
  · rw [hcount, htb]
    exact count_eq_ceil ps _ _ hpos (Int.natCast_nonneg _) hlen
  · intro h0
    have h0' : ((totalBytes files : Nat) : Int) = 0 := by
      rw [h0]; rfl
    have hsum : ps * ((processFiles (NewMultiHasher ps)
          files).torrentPieces.length : Int)
        + ((processFiles (NewMultiHasher ps)
            files).torrentPieceBuffer.length : Int) = 0 := by
      rw [← htb, h0']
    have h1 : 0 ≤ ps * ((processFiles (NewMultiHasher ps)
          files).torrentPieces.length : Int) :=
      mul_nonneg (le_of_lt hpos) (Int.natCast_nonneg _)
    have h2 : 0 ≤ ((processFiles (NewMultiHasher ps)
        files).torrentPieceBuffer.length : Int) := Int.natCast_nonneg _
    have hpk : ps * ((processFiles (NewMultiHasher ps)
        files).torrentPieces.length : Int) = 0 := by omega
    have hk : ((processFiles (NewMultiHasher ps)
        files).torrentPieces.length : Int) = 0 := by
      rcases mul_eq_zero.mp hpk with h | h
      · omega
      · exact h
    have hr : ((processFiles (NewMultiHasher ps)
        files).torrentPieceBuffer.length : Int) = 0 := by omega
    show ((processFiles (NewMultiHasher ps) files).Finalize).torrentPieces = []
    unfold MultiHasher.Finalize
    rw [if_neg (by omega)]
    exact List.length_eq_zero.mp (by exact_mod_cast hk)

theorem claim_C4_witness :
    (((run 2 [("a", [[5, 6, 7]])]).GetTorrentPieces).length : Int)
        = ((totalBytes [("a", [[5, 6, 7]])] : Int) + 2 - 1) / 2
      ∧ (totalBytes [("a", [[5, 6, 7]])] = 0 →
          (run 2 [("a", [[5, 6, 7]])]).GetTorrentPieces = []) :=
  claim_C4 2 (by decide) [("a", [[5, 6, 7]])]

/-- Claim C7: for a run over a 200 KiB file followed by a 100 KiB file
with `PieceLength = 256 KiB`, each per-file piece digest list is
exactly one (short) piece — the file's own bytes — while the
cross-file stream has exactly two digests: the first over the full
200 KiB of the first file concatenated with the first 56 KiB of the
second, the second over the remaining 44 KiB of the second file. -/
theorem claim_C7 (a b : Chunk) (ha : a.length = 204800)
    (hb : b.length = 102400) :
    ((run 262144 [("f1", [a]), ("f2", [b])]).GetResults.map
        FileHashResult.pieceHashes) = [[a], [b]]
      ∧ (run 262144 [("f1", [a]), ("f2", [b])]).GetTorrentPieces
          = [a ++ b.take 57344, b.drop 57344] := by
  have htklen : (b.take 57344).length = 57344 := by
    rw [List.length_take, hb]
    omega
  have hdplen : (b.drop 57344).length = 45056 := by
    rw [List.length_drop, hb]
  have hbsplit : b.take 57344 ++ b.drop 57344 = b := List.take_append_drop _ _
  constructor
  · have hres : (run 262144 [("f1", [a]), ("f2", [b])]).GetResults
        = [(processFile (NewMultiHasher 262144) "f1" [a]).2,
           (processFile (NewMultiHasher 262144) "f2" [b]).2] := by
      show ((processFiles (NewMultiHasher 262144)
          [("f1", [a]), ("f2", [b])]).Finalize).results = _
      rw [finalize_results, processFiles_results]
      rfl
    rw [hres]
    show [(processFile (NewMultiHasher 262144) "f1" [a]).2.pieceHashes,
          (processFile (NewMultiHasher 262144) "f2" [b]).2.pieceHashes]
        = [[a], [b]]
    rw [short_file_single_piece 262144 "f1" a (by omega) (by omega),
      short_file_single_piece 262144 "f2" b (by omega) (by omega)]
  · show ((processFiles (NewMultiHasher 262144)
        [("f1", [a]), ("f2", [b])]).Finalize).torrentPieces = _
    have hsteps : processFiles (NewMultiHasher 262144)
          [("f1", [a]), ("f2", [b])]
        = (processFile (processFile (NewMultiHasher 262144) "f1" [a]).1
            "f2" [b]).1 := rfl
    rw [hsteps]
    -- the state after the first file
    obtain ⟨t1, t2, t3⟩ := write_tor_no_emit
      ((NewMultiHasher 262144).StartFile "f1") a rfl
      (by
        show (0 : Int) + (a.length : Int) < (262144 : Int)
        omega)
    obtain ⟨e1, e2, e3, _, _⟩ := endFile_torrent_frame
      (((NewMultiHasher 262144).StartFile "f1").Write a)
    have h1tb : (processFile (NewMultiHasher 262144)
        "f1" [a]).1.torrentPieceBuffer = a := by
      show ((((NewMultiHasher 262144).StartFile
          "f1").Write a).EndFile).1.torrentPieceBuffer = a
      rw [e1, t1]
      rfl
    have h1ts : (processFile (NewMultiHasher 262144)
        "f1" [a]).1.torrentPieceSHA1 = a := by
      show ((((NewMultiHasher 262144).StartFile
          "f1").Write a).EndFile).1.torrentPieceSHA1 = a
      rw [e2, t2]
      rfl
    have h1tp : (processFile (NewMultiHasher 262144)
        "f1" [a]).1.torrentPieces = [] := by
      show ((((NewMultiHasher 262144).StartFile
          "f1").Write a).EndFile).1.torrentPieces = []
      rw [e3, t3]
      rfl
    have h1ps : (processFile (NewMultiHasher 262144)
        "f1" [a]).1.pieceSize = 262144 :=
      processFile_pieceSize (NewMultiHasher 262144) "f1" [a]
    -- the second file crosses one piece boundary
    obtain ⟨o1, o2, o3⟩ := write_tor_one_emit
      ((processFile (NewMultiHasher 262144) "f1" [a]).1.StartFile "f2")
      (b.take 57344) (b.drop 57344)
      (by
        show (processFile (NewMultiHasher 262144)
            "f1" [a]).1.torrentPieceSHA1
          = (processFile (NewMultiHasher 262144) "f1" [a]).1.torrentPieceBuffer
        rw [h1ts, h1tb])
      (by
        intro hnil
        rw [hnil] at htklen
        simp at htklen)
      (by
        show ((processFile (NewMultiHasher 262144)
              "f1" [a]).1.torrentPieceBuffer.length : Int)
            + ((b.take 57344).length : Int)
          = (processFile (NewMultiHasher 262144) "f1" [a]).1.pieceSize
        rw [h1tb, h1ps, htklen, ha]
        norm_num)
      (by
        show ((b.drop 57344).length : Int)
          < (processFile (NewMultiHasher 262144) "f1" [a]).1.pieceSize
        rw [hdplen, h1ps]
        norm_num)
    rw [hbsplit] at o1 o2 o3
    obtain ⟨f1e, f2e, f3e, _, _⟩ := endFile_torrent_frame
      (((processFile (NewMultiHasher 262144)
        "f1" [a]).1.StartFile "f2").Write b)
    have h2tb : (processFile (processFile (NewMultiHasher 262144)
        "f1" [a]).1 "f2" [b]).1.torrentPieceBuffer = b.drop 57344 := by
      show ((((processFile (NewMultiHasher 262144)
          "f1" [a]).1.StartFile "f2").Write b).EndFile).1.torrentPieceBuffer = _
      rw [f1e, o1]
    have h2ts : (processFile (processFile (NewMultiHasher 262144)
        "f1" [a]).1 "f2" [b]).1.torrentPieceSHA1 = b.drop 57344 := by
      show ((((processFile (NewMultiHasher 262144)
          "f1" [a]).1.StartFile "f2").Write b).EndFile).1.torrentPieceSHA1 = _
      rw [f2e, o2]
    have h2tp : (processFile (processFile (NewMultiHasher 262144)
        "f1" [a]).1 "f2" [b]).1.torrentPieces = [a ++ b.take 57344] := by
      show ((((processFile (NewMultiHasher 262144)
          "f1" [a]).1.StartFile "f2").Write b).EndFile).1.torrentPieces = _
      rw [f3e, o3]
      show (processFile (NewMultiHasher 262144) "f1" [a]).1.torrentPieces
          ++ [(processFile (NewMultiHasher 262144)
              "f1" [a]).1.torrentPieceBuffer ++ b.take 57344] = _
      rw [h1tp, h1tb]
      rfl
    unfold MultiHasher.Finalize
    rw [if_pos (by
      rw [h2tb, hdplen]
      norm_num)]
    show (processFile (processFile (NewMultiHasher 262144)
          "f1" [a]).1 "f2" [b]).1.torrentPieces
        ++ [(processFile (processFile (NewMultiHasher 262144)
            "f1" [a]).1 "f2" [b]).1.torrentPieceSHA1]
      = [a ++ b.take 57344, b.drop 57344]
    rw [h2tp, h2ts]
    rfl

theorem claim_C7_witness :
    ((run 262144 [("f1", [List.replicate 204800 0]),
          ("f2", [List.replicate 102400 1])]).GetResults.map
        FileHashResult.pieceHashes)
        = [[List.replicate 204800 0], [List.replicate 102400 1]]
      ∧ (run 262144 [("f1", [List.replicate 204800 0]),
          ("f2", [List.replicate 102400 1])]).GetTorrentPieces
          = [List.replicate 204800 0 ++ (List.replicate 102400 1).take 57344,
             (List.replicate 102400 1).drop 57344] :=
  claim_C7 (List.replicate 204800 0) (List.replicate 102400 1)
    (List.length_replicate 204800 0) (List.length_replicate 102400 1)

end Mkmetalink
